import Mathlib

/-!
Verification of the FAUG training/evaluation engine (engine.py) against its
natural-language specification.  Tensors are embedded as lists of rationals
(one sample, spatial dimensions flattened); machine floats are modelled by
`FloatVal`, which distinguishes finite values from nan and the infinities so
that numpy division-by-zero semantics can be stated exactly.
-/

namespace FAUG

/-- A machine floating-point value at exact rational points:
either a finite rational, nan, or a signed infinity. -/
inductive FloatVal where
  | finite (q : ℚ)
  | nan
  | posInf
  | negInf
deriving DecidableEq

/-- numpy division semantics at exact values: `0/0 = nan`,
`a/0 = ±inf` for `a ≠ 0` (a warning, not an exception), otherwise exact. -/
def npDiv (a b : ℚ) : FloatVal :=
  if b = 0 then (if a = 0 then FloatVal.nan else if 0 < a then FloatVal.posInf else FloatVal.negInf)
  else FloatVal.finite (a / b)

/-- The comparison `x < c` on floats: false whenever `x` is nan
(IEEE-754 comparisons with nan are false), true for `-inf`. -/
def fltLt (x : FloatVal) (c : ℚ) : Bool :=
  match x with
  | FloatVal.finite q => decide (q < c)
  | FloatVal.negInf => true
  | _ => false

/-- Minimum of a list of rationals (0 for the empty list, never used there). -/
def listMin : List ℚ → ℚ
  | [] => 0
  | x :: xs => xs.foldl min x

/-- Maximum of a list of rationals (0 for the empty list, never used there). -/
def listMax : List ℚ → ℚ
  | [] => 0
  | x :: xs => xs.foldl max x

/-- Modelled from the spec: `af.rescale_intensity` lives in
`dataloaders/aggregative_fusion.py`, which is not part of the provided source;
spec section 3 describes it as min-max rescaling to `[0,1]` per sample over the
spatial dimensions.  A list stands for one sample's flattened spatial values.
(For a constant sample the real code would divide by zero; in `ℚ` the quotient
is 0.  The claims only use non-constant samples.) -/
def rescale_intensity (v : List ℚ) : List ℚ :=
  v.map (fun x => (x - listMin v) / (listMax v - listMin v))

/-- engine.py line 167: `mean_UG = (uncertainty_CFAT + uncertainty_LFAT) / 2`. -/
def mean_UG (uc ua : List ℚ) : List ℚ :=
  List.zipWith (fun a b => (a + b) / 2) uc ua

/-- engine.py line 168: `max_UG = torch.maximum(uncertainty_CFAT, uncertainty_LFAT)`. -/
def max_UG (uc ua : List ℚ) : List ℚ :=
  List.zipWith max uc ua

/-- engine.py line 169: `UG = (mean_UG + max_UG) / 2`. -/
def combUG (uc ua : List ℚ) : List ℚ :=
  List.zipWith (fun a b => (a + b) / 2) (mean_UG uc ua) (max_UG uc ua)

/-- engine.py line 170:
`UG = af.rescale_intensity(GaussianBlur(kernel_size=(29,29), sigma=(10,10))(UG))`.
The torchvision `GaussianBlur` collaborator is taken as a parameter `blur`
(its sigma-10 kernel weights are transcendental, and the claims under test
concern the order of the operations, which is independent of the weights). -/
def fuseUG (blur : List ℚ → List ℚ) (uc ua : List ℚ) : List ℚ :=
  rescale_intensity (blur (combUG uc ua))

/-- The formula claimed by the spec (section 4.3, step 3):
`UG = blur(rescale((mean + max)/2))`, i.e. the min-max rescale applied to the
combination first and the blur applied last. -/
def fuseUG_spec (blur : List ℚ → List ℚ) (uc ua : List ℚ) : List ℚ :=
  blur (rescale_intensity (combUG uc ua))

/-- A concrete normalized 3-tap smoothing kernel with reflect padding — the
shape of torchvision's `GaussianBlur` (a normalized, positive, symmetric
convolution kernel with reflect padding), with rational weights so that it can
be evaluated exactly.  Used to exhibit the order mismatch at a concrete input. -/
def boxBlur3 (v : List ℚ) : List ℚ :=
  (List.range v.length).map (fun i =>
    (v.getD (if i = 0 then 1 else i - 1) 0 + v.getD i 0 +
     v.getD (if i = v.length - 1 then v.length - 2 else i + 1) 0) / 3)

/-- Fusing two pointwise `zipWith`s of the same two lists into one. -/
lemma zipWith_fuse (f g h : ℚ → ℚ → ℚ) :
    ∀ (as bs : List ℚ),
      List.zipWith f (List.zipWith g as bs) (List.zipWith h as bs) =
        List.zipWith (fun a b => f (g a b) (h a b)) as bs := by
  intro as
  induction as with
  | nil => intro bs; simp
  | cons a as ih =>
    intro bs
    cases bs with
    | nil => simp
    | cons b bs => simp [ih]

/-- C1 (amended).  The code's stepwise combination `mean_UG`, `max_UG`,
`(mean_UG + max_UG)/2` equals the single formula
`((uc+ua)/2 + max(uc,ua))/2` pointwise, and the fused guidance mask is the
per-sample min-max rescale of the blurred combination — the blur is applied
first and the rescale last (engine.py line 170), not the other way around. -/
theorem thm_C1 (blur : List ℚ → List ℚ) (uc ua : List ℚ) :
    fuseUG blur uc ua =
      rescale_intensity
        (blur (List.zipWith (fun a b => ((a + b) / 2 + max a b) / 2) uc ua)) := by
  unfold fuseUG combUG mean_UG max_UG
  rw [zipWith_fuse]

/-- C1 counterexample: with a concrete normalized smoothing kernel and the
concrete per-sample-rescaled uncertainty maps `uc = ua = [0, 1]`, the code's
mask `rescale(blur(comb))` is `[1, 0]` while the claimed formula
`blur(rescale(comb))` gives `[2/3, 1/3]`: the claimed order (rescale first,
blur last) does not match the code. -/
theorem cex_C1 :
    fuseUG boxBlur3 [0, 1] [0, 1] ≠ fuseUG_spec boxBlur3 [0, 1] [0, 1] := by
  simp [fuseUG, fuseUG_spec, rescale_intensity, combUG, mean_UG, max_UG, boxBlur3,
    listMin, listMax, List.range_succ]
  norm_num

/-- engine.py line 173: `gt = np.where(gt > 1, 1, gt)` — values greater
than 1 mapped to 1, other values kept. -/
def binarizeGT (lbl : List ℤ) : List ℤ := lbl.map (fun v => if 1 < v then 1 else v)
/-- engine.py line 176: `gt_idx_len = len(np.where(gt == 1)[0])`. -/
def fgCount (g : List ℤ) : ℕ := g.countP (fun v => decide (v = 1))
/-- engine.py lines 174 and 177: `gt_ug = gt * UG[:, 0]` followed by
`uncer_sum = np.sum(gt_ug)`. -/
def uncer_sum (g : List ℤ) (ug : List ℚ) : ℚ :=
  (List.zipWith (fun (gv : ℤ) (u : ℚ) => (gv : ℚ) * u) g ug).sum
/-- engine.py line 179: the quotient `uncer_sum / gt_idx_len`, a numpy float
division (nan when the foreground count and the sum are both zero). -/
def covQuot (lbl : List ℤ) (ug : List ℚ) : FloatVal :=
  npDiv (uncer_sum (binarizeGT lbl) ug) ((fgCount (binarizeGT lbl) : ℚ))
/-- engine.py line 180: `mixed_var = CFAT_img.detach() * UG + LFAT_img * (1 - UG)`
(the weighted blend; `.detach()` only affects gradients, not values). -/
def blendMix (clean aug ug : List ℚ) : List ℚ :=
  List.zipWith (fun p u => p.1 * u + p.2 * (1 - u)) (clean.zip aug) ug
/-- engine.py line 182: `mixed_var = CFAT_img.detach() + LFAT_img`. -/
def sumMix (clean aug : List ℚ) : List ℚ := List.zipWith (fun a b => a + b) clean aug
/-- engine.py lines 179 to 182: the blend-vs-sum decision on the coverage
quotient, selecting the weighted blend exactly when the float comparison
`uncer_sum / gt_idx_len < 0.5` holds. -/
def mixed_var (clean aug ug : List ℚ) (lbl : List ℤ) : List ℚ :=
  if fltLt (covQuot lbl ug) (1/2) then blendMix clean aug ug else sumMix clean aug

/-- `getD` distributes over `zipWith` inside the common length. -/
lemma zipWith_getD {α β γ : Type} (f : α → β → γ) (d : γ) (da : α) (db : β) :
    ∀ (as : List α) (bs : List β) (i : ℕ), i < as.length → i < bs.length →
      (List.zipWith f as bs).getD i d = f (as.getD i da) (bs.getD i db) := by
  intro as
  induction as with
  | nil => intro bs i h1 h2; simp at h1
  | cons a as ih =>
    intro bs i h1 h2
    cases bs with
    | nil => simp at h2
    | cons b bs =>
      cases i with
      | zero => simp
      | succ n =>
        simp only [List.zipWith_cons_cons, List.getD_cons_succ]
        exact ih bs n (by simpa using h1) (by simpa using h2)

/-- Pointwise reading of the weighted blend. -/
lemma blendMix_getD :
    ∀ (clean aug ug : List ℚ) (i : ℕ), i < clean.length → i < aug.length → i < ug.length →
      (blendMix clean aug ug).getD i 0 =
        clean.getD i 0 * ug.getD i 0 + aug.getD i 0 * (1 - ug.getD i 0) := by
  intro clean
  induction clean with
  | nil => intro aug ug i h1 h2 h3; simp at h1
  | cons c cs ih =>
    intro aug ug i h1 h2 h3
    cases aug with
    | nil => simp at h2
    | cons a as =>
      cases ug with
      | nil => simp at h3
      | cons u us =>
        cases i with
        | zero => simp [blendMix]
        | succ n =>
          simp only [blendMix, List.zip_cons_cons, List.zipWith_cons_cons, List.getD_cons_succ]
          exact ih as us n (by simpa using h1) (by simpa using h2) (by simpa using h3)

/-- Pointwise reading of the unweighted sum. -/
lemma sumMix_getD :
    ∀ (clean aug : List ℚ) (i : ℕ), i < clean.length → i < aug.length →
      (sumMix clean aug).getD i 0 = clean.getD i 0 + aug.getD i 0 := by
  intro clean aug i h1 h2
  exact zipWith_getD (fun a b => a + b) 0 0 0 clean aug i h1 h2

/-- C2.  In every UGM iteration the label is binarized by mapping values
greater than 1 to 1, the coverage ratio is `sum(label_fg * UG) / count(label_fg == 1)`,
and (when the foreground count is positive, so the ratio is a finite float)
the mixed input is `clean*UG + aug*(1-UG)` pointwise exactly when the ratio is
below 1/2, and `clean + aug` otherwise. -/
theorem thm_C2 (clean aug ug : List ℚ) (lbl : List ℤ)
    (hfg : 0 < fgCount (binarizeGT lbl)) :
    (∀ i, i < lbl.length →
      (binarizeGT lbl).getD i 0 = if 1 < lbl.getD i 0 then 1 else lbl.getD i 0)
    ∧ covQuot lbl ug =
        FloatVal.finite (uncer_sum (binarizeGT lbl) ug / (fgCount (binarizeGT lbl) : ℚ))
    ∧ ∀ i, i < clean.length → i < aug.length → i < ug.length →
        (mixed_var clean aug ug lbl).getD i 0 =
          if uncer_sum (binarizeGT lbl) ug / (fgCount (binarizeGT lbl) : ℚ) < 1/2
          then clean.getD i 0 * ug.getD i 0 + aug.getD i 0 * (1 - ug.getD i 0)
          else clean.getD i 0 + aug.getD i 0 := by
  have hne : ((fgCount (binarizeGT lbl) : ℚ)) ≠ 0 := by
    exact_mod_cast Nat.pos_iff_ne_zero.mp hfg
  have hcov : covQuot lbl ug =
      FloatVal.finite (uncer_sum (binarizeGT lbl) ug / (fgCount (binarizeGT lbl) : ℚ)) := by
    unfold covQuot npDiv
    simp [hne]
  refine ⟨?_, hcov, ?_⟩
  · intro i hi
    unfold binarizeGT
    rw [List.getD_eq_getElem?_getD, List.getElem?_map, List.getElem?_eq_getElem hi]
    simp [List.getD_eq_getElem?_getD, List.getElem?_eq_getElem hi]
  · intro i hc ha hu
    unfold mixed_var
    rw [hcov]
    by_cases hq : uncer_sum (binarizeGT lbl) ug / (fgCount (binarizeGT lbl) : ℚ) < 1/2
    · rw [if_pos (by simp only [fltLt, decide_eq_true_eq]; linarith), if_pos hq]
      exact blendMix_getD clean aug ug i hc ha hu
    · rw [if_neg (by simp only [fltLt, Bool.not_eq_true, decide_eq_false_iff_not]; intro h; exact hq (by linarith)), if_neg hq]
      exact sumMix_getD clean aug i hc ha

/-- Witness for C2 at a concrete input. -/
theorem thm_C2_witness :
    0 < fgCount (binarizeGT [(0 : ℤ), 2]) ∧
    (mixed_var [(1 : ℚ), 2] [3, 4] [1, 0] [(0 : ℤ), 2]).getD 0 0 = 1 := by
  have h := (thm_C2 [(1 : ℚ), 2] [3, 4] [1, 0] [(0 : ℤ), 2] (by decide)).2.2
    0 (by decide) (by decide) (by decide)
  refine ⟨by decide, ?_⟩
  rw [h]
  norm_num [uncer_sum, binarizeGT, fgCount]

/-- With nonnegative labels and no foreground pixel, the binarized label is
identically zero. -/
lemma binarize_all_zero (lbl : List ℤ) (hnn : ∀ v ∈ lbl, 0 ≤ v)
    (hfg : fgCount (binarizeGT lbl) = 0) : ∀ x ∈ binarizeGT lbl, x = 0 := by
  intro x hx
  have hne1 : ¬(x = 1) := by
    have := (List.countP_eq_zero.mp hfg) x hx
    simpa using this
  obtain ⟨v, hv, hvx⟩ := List.mem_map.mp hx
  by_cases h1 : 1 < v
  · exfalso; apply hne1; rw [← hvx]; simp [h1]
  · have hx2 : x = v := by rw [← hvx]; simp [h1]
    have h0 : 0 ≤ v := hnn v hv
    omega

/-- The coverage numerator vanishes on an identically-zero binarized label. -/
lemma uncer_sum_zero :
    ∀ (g : List ℤ) (ug : List ℚ), (∀ x ∈ g, x = 0) → uncer_sum g ug = 0 := by
  intro g
  induction g with
  | nil => intro ug h; simp [uncer_sum]
  | cons a as ih =>
    intro ug h
    cases ug with
    | nil => simp [uncer_sum]
    | cons u us =>
      have ha : a = 0 := h a (by simp)
      have h2 := ih us (fun x hx => h x (by simp [hx]))
      simp only [uncer_sum] at h2
      simp only [uncer_sum, List.zipWith_cons_cons, List.sum_cons, ha,
        Int.cast_zero, zero_mul, zero_add]
      exact h2

/-- C6.  For every UGM batch whose binarized label has zero foreground
pixels (labels nonnegative), the coverage division is 0/0, which numpy turns
into the non-finite value nan rather than raising; `nan < 0.5` is false, so
the unweighted-sum branch is selected. -/
theorem thm_C6 (lbl : List ℤ) (ug clean aug : List ℚ)
    (hnn : ∀ v ∈ lbl, 0 ≤ v) (hfg : fgCount (binarizeGT lbl) = 0) :
    covQuot lbl ug = FloatVal.nan
    ∧ fltLt (covQuot lbl ug) (1/2) = false
    ∧ mixed_var clean aug ug lbl = sumMix clean aug := by
  have hz := binarize_all_zero lbl hnn hfg
  have hs : uncer_sum (binarizeGT lbl) ug = 0 := uncer_sum_zero _ _ hz
  have hcov : covQuot lbl ug = FloatVal.nan := by
    unfold covQuot npDiv
    simp [hs, hfg]
  exact ⟨hcov, by simp [hcov, fltLt], by unfold mixed_var; simp [hcov, fltLt]⟩

/-- Witness for C6 at a concrete input. -/
theorem thm_C6_witness :
    (∀ v ∈ [(0 : ℤ), 0], 0 ≤ v) ∧ fgCount (binarizeGT [(0 : ℤ), 0]) = 0 ∧
    covQuot [(0 : ℤ), 0] [1/2, 1/4] = FloatVal.nan ∧
    mixed_var [(1 : ℚ), 2] [3, 4] [1/2, 1/4] [(0 : ℤ), 0] = [4, 6] := by
  have h := thm_C6 [(0 : ℤ), 0] [1/2, 1/4] [(1 : ℚ), 2] [3, 4]
    (by decide) (by decide)
  refine ⟨by decide, by decide, h.1, ?_⟩
  rw [h.2.2]
  norm_num [sumMix]

/-- A loss dict or weight table `{name: scalar}` as an association list. -/
abbrev LossDict := List (String × ℚ)

/-- engine.py lines 41 and 77 (train_warm_up / train_one_epoch):
`losses = sum(loss_dict[k] * criterion.weight_dict[k] for k in loss_dict.keys())`.
`none` models the KeyError raised when a key of the loss dict is absent from
the weight table (python evaluates the generator lazily inside `sum`). -/
def standardLoss (L W : LossDict) : Option ℚ :=
  L.foldr (fun kv acc =>
    match acc, W.lookup kv.1 with
    | some s, some w => some (kv.2 * w + s)
    | _, _ => none) (some 0)

/-- engine.py lines 135, 152 and 187 (train_one_epoch_FIESTA):
`losses = sum(loss_dict[k] * criterion.weight_dict[k] for k in loss_dict.keys()
if k in criterion.weight_dict)` — keys missing from the weight table are
silently skipped. -/
def ugmLoss (L W : LossDict) : ℚ :=
  ((L.filter (fun kv => (W.lookup kv.1).isSome)).map
    (fun kv => kv.2 * ((W.lookup kv.1).getD 0))).sum

/-- engine.py lines 201 to 206: the aggregated per-iteration record.  For each
key `k` of the clean loss dict, `if k not in criterion.weight_dict: continue`,
otherwise entries `k`, `k_aug` and `k_mix` are added with the per-branch values
(the branch dicts share the clean dict's keys, looked up here with default 0). -/
def aggRecord (L La Lm W : LossDict) : LossDict :=
  (L.filter (fun kv => (W.lookup kv.1).isSome)).flatMap
    (fun kv => [(kv.1, kv.2), (kv.1 ++ "_aug", (La.lookup kv.1).getD 0),
                (kv.1 ++ "_mix", (Lm.lookup kv.1).getD 0)])

/-- With every key weighted, the standard sum succeeds and is the weighted sum. -/
lemma standardLoss_all (W : LossDict) :
    ∀ L : LossDict, (∀ kv ∈ L, (W.lookup kv.1).isSome) →
      standardLoss L W = some ((L.map (fun kv => kv.2 * ((W.lookup kv.1).getD 0))).sum) := by
  intro L
  induction L with
  | nil => intro h; simp [standardLoss]
  | cons kv L ih =>
    intro hall
    have hkv := hall kv (by simp)
    obtain ⟨w, hw⟩ := Option.isSome_iff_exists.mp hkv
    have ih2 := ih (fun x hx => hall x (by simp [hx]))
    simp only [standardLoss] at ih2 ⊢
    simp only [List.foldr_cons, ih2, hw, List.map_cons, List.sum_cons, Option.getD_some]

/-- A single unweighted key makes the standard sum raise (KeyError). -/
lemma standardLoss_none (W : LossDict) :
    ∀ (L : LossDict) (kv : String × ℚ), kv ∈ L → W.lookup kv.1 = none →
      standardLoss L W = none := by
  intro L
  induction L with
  | nil => intro kv h; simp at h
  | cons a L ih =>
    intro kv hmem hnone
    simp only [standardLoss, List.foldr_cons]
    rcases List.mem_cons.mp hmem with h | h
    · subst h
      rw [hnone]
      generalize (List.foldr (fun kv acc =>
        match acc, List.lookup kv.1 W with
        | some s, some w => some (kv.2 * w + s)
        | _, _ => none) (some 0) L : Option ℚ) = acc
      rcases acc with _ | s
      · rfl
      · rfl
    · have h2 := ih kv h hnone
      simp only [standardLoss] at h2
      rw [h2]

/-- The UGM sum equals the sum in which unweighted keys contribute zero. -/
lemma ugmLoss_eq (W : LossDict) :
    ∀ L : LossDict,
      ugmLoss L W = (L.map (fun kv => (W.lookup kv.1).elim 0 (fun w => kv.2 * w))).sum := by
  intro L
  induction L with
  | nil => simp [ugmLoss]
  | cons kv L ih =>
    simp only [ugmLoss] at ih
    rcases h : W.lookup kv.1 with _ | w
    · simp only [ugmLoss, List.filter_cons, h, Option.isSome_none, Bool.false_eq_true,
        if_false, List.map_cons, List.sum_cons, Option.elim_none, ih, zero_add]
    · simp only [ugmLoss, List.filter_cons, h, Option.isSome_some, if_true,
        List.map_cons, List.sum_cons, Option.elim_some, Option.getD_some, ih]

/-- C3.  The StandardEpochRunner/WarmupScheduler total is
`sum(L[k]*W[k] for k in L)` and raises (`none`) when some key of `L` is absent
from `W`, whereas the UGM per-branch total is the sum restricted to keys
present in `W` (missing keys contribute nothing), and every entry of the
aggregated record arises from a key of `L` that is present in `W`. -/
theorem thm_C3 (L La Lm W : LossDict) :
    ((∀ kv ∈ L, (W.lookup kv.1).isSome) →
        standardLoss L W = some ((L.map (fun kv => kv.2 * ((W.lookup kv.1).getD 0))).sum))
    ∧ ((∃ kv ∈ L, W.lookup kv.1 = none) → standardLoss L W = none)
    ∧ ugmLoss L W = (L.map (fun kv => (W.lookup kv.1).elim 0 (fun w => kv.2 * w))).sum
    ∧ ∀ p, p ∈ aggRecord L La Lm W ↔ ∃ kv, kv ∈ L ∧ (W.lookup kv.1).isSome = true ∧
        (p = (kv.1, kv.2) ∨ p = (kv.1 ++ "_aug", (La.lookup kv.1).getD 0) ∨
         p = (kv.1 ++ "_mix", (Lm.lookup kv.1).getD 0)) := by
  refine ⟨standardLoss_all W L, ?_, ugmLoss_eq W L, ?_⟩
  · rintro ⟨kv, h1, h2⟩
    exact standardLoss_none W L kv h1 h2
  · intro p
    simp only [aggRecord, List.mem_flatMap, List.mem_filter]
    constructor
    · rintro ⟨kv, ⟨hmem, hsome⟩, hp⟩
      refine ⟨kv, hmem, hsome, ?_⟩
      simpa using hp
    · rintro ⟨kv, hmem, hsome, hp⟩
      exact ⟨kv, ⟨hmem, hsome⟩, by simpa using hp⟩

/-- Witness for C3 at concrete dicts. -/
theorem thm_C3_witness :
    standardLoss [("a", 2), ("b", 3)] [("a", 5), ("b", 7)] = some 31
    ∧ standardLoss [("a", 2), ("c", 3)] [("a", 5), ("b", 7)] = none
    ∧ ugmLoss [("a", 2), ("c", 3)] [("a", 5), ("b", 7)] = 10
    ∧ ("c", (3 : ℚ)) ∉ aggRecord [("a", 2), ("c", 3)] [("a", 4)] [("a", 6)] [("a", 5), ("b", 7)] := by
  refine ⟨?_, ?_, ?_, ?_⟩
  · rw [(thm_C3 [("a", 2), ("b", 3)] [] [] [("a", 5), ("b", 7)]).1 (by decide)]
    simp [List.lookup]
    norm_num
  · exact (thm_C3 [("a", 2), ("c", 3)] [] [] [("a", 5), ("b", 7)]).2.1
      ⟨("c", 3), by simp, by simp [List.lookup]⟩
  · rw [(thm_C3 [("a", 2), ("c", 3)] [] [] [("a", 5), ("b", 7)]).2.2.1]
    simp [List.lookup]
    norm_num
  · intro hmem
    have h := ((thm_C3 [("a", 2), ("c", 3)] [("a", 4)] [("a", 6)]
      [("a", 5), ("b", 7)]).2.2.2 ("c", 3)).mp hmem
    obtain ⟨kv, hkv, hsome, hp⟩ := h
    rcases List.mem_cons.mp hkv with h1 | h1
    · subst h1; rcases hp with h2 | h2 | h2 <;> simp_all
    · simp only [List.mem_singleton] at h1
      subst h1
      simp [List.lookup] at hsome

/-- Observable events of one FIESTA loop iteration, in program order:
the optimizer step (engine.py line 199), the metric-logger updates
(lines 208-209), the periodic visualization dump (lines 215-230), and the
counter increment (line 231). -/
inductive Ev where
  | optStep
  | metricUpd
  | visDump
  | incr
deriving DecidableEq

/-- engine.py line 113: `visual_freq = 200`. -/
def visual_freq : ℤ := 200

/-- engine.py lines 199-231, the tail of one loop body after the three branch
passes: `optimizer.step()`; `metric_logger.update(...)`;
`if cur_iteration >= max_iteration and max_iteration > 0: break`;
`if visdir is not None and cur_iteration % visual_freq == 0:` dump;
`cur_iteration += 1`.  Returns the emitted events and whether the loop
continues past this batch. -/
def fiestaIter (visdir : Bool) (cur maxIt : ℤ) : List Ev × Bool :=
  let evs := [Ev.optStep, Ev.metricUpd]
  if cur ≥ maxIt ∧ maxIt > 0 then (evs, false)
  else
    let evs2 := if visdir ∧ cur % visual_freq = 0 then evs ++ [Ev.visDump] else evs
    (evs2 ++ [Ev.incr], true)

/-- engine.py lines 114-231: the FIESTA epoch loop over the batches, threading
the iteration counter and the most recent augmented-branch loss dict
(`aug_loss_dict`, assigned at line 151 in every iteration, including one that
breaks). -/
def fiestaLoop {α : Type} (augLD : α → LossDict) (visdir : Bool) (maxIt : ℤ) :
    List α → ℤ → Option LossDict → List Ev × ℤ × Option LossDict
  | [], cur, last => ([], cur, last)
  | b :: rest, cur, last =>
    let ld := augLD b
    let r := fiestaIter visdir cur maxIt
    if r.2 then
      let r2 := fiestaLoop augLD visdir maxIt rest (cur + 1) (some ld)
      (r.1 ++ r2.1, r2.2.1, r2.2.2)
    else (r.1, cur, some ld)

/-- engine.py line 235: `return cur_iteration, aug_loss_dict`.  If the loop
body never ran (empty data source), `aug_loss_dict` was never bound and the
return statement raises a NameError instead of returning. -/
def train_one_epoch_FIESTA {α : Type} (augLD : α → LossDict) (visdir : Bool) (maxIt : ℤ)
    (batches : List α) (cur : ℤ) : Except String (ℤ × LossDict) :=
  match fiestaLoop augLD visdir maxIt batches cur none with
  | (_, cur2, some ld) => Except.ok (cur2, ld)
  | (_, _, none) => Except.error "NameError"

/-- C4.  When the counter has reached a positive `max_iteration` budget, the
iteration emits only the optimizer step and metric update — no visualization
dump and no counter increment — and the epoch loop stops there, returning the
unincremented counter; in every non-exiting iteration the visualization dump,
when it fires, comes after the budget check and immediately before the counter
increment. -/
theorem thm_C4 {α : Type} (augLD : α → LossDict) (visdir : Bool) (cur maxIt : ℤ) :
    (0 < maxIt → maxIt ≤ cur →
      fiestaIter visdir cur maxIt = ([Ev.optStep, Ev.metricUpd], false)
      ∧ ∀ (b : α) (rest : List α) (last : Option LossDict),
          fiestaLoop augLD visdir maxIt (b :: rest) cur last =
            ([Ev.optStep, Ev.metricUpd], cur, some (augLD b)))
    ∧ (¬(0 < maxIt ∧ maxIt ≤ cur) →
      fiestaIter visdir cur maxIt =
        ((if visdir ∧ cur % visual_freq = 0
          then [Ev.optStep, Ev.metricUpd, Ev.visDump, Ev.incr]
          else [Ev.optStep, Ev.metricUpd, Ev.incr]), true)) := by
  constructor
  · intro h1 h2
    have hiter : fiestaIter visdir cur maxIt = ([Ev.optStep, Ev.metricUpd], false) := by
      unfold fiestaIter
      rw [if_pos ⟨h2, h1⟩]
    refine ⟨hiter, ?_⟩
    intro b rest last
    unfold fiestaLoop
    rw [hiter]
    simp
  · intro h
    unfold fiestaIter
    rw [if_neg (by rw [ge_iff_le, gt_iff_lt]; tauto)]
    by_cases hv : visdir ∧ cur % visual_freq = 0
    · rw [if_pos hv, if_pos hv]
      rfl
    · rw [if_neg hv, if_neg hv]
      rfl

/-- Witness for C4 at concrete inputs. -/
theorem thm_C4_witness :
    fiestaIter true 5 5 = ([Ev.optStep, Ev.metricUpd], false)
    ∧ fiestaLoop (fun _ : Unit => [("a", (1 : ℚ))]) true 5 [(), ()] 5 none =
        ([Ev.optStep, Ev.metricUpd], 5, some [("a", 1)])
    ∧ fiestaIter true 0 5 = ([Ev.optStep, Ev.metricUpd, Ev.visDump, Ev.incr], true) := by
  have h5 := thm_C4 (fun _ : Unit => [("a", (1 : ℚ))]) true 5 5
  have h0 := thm_C4 (fun _ : Unit => [("a", (1 : ℚ))]) true 0 5
  refine ⟨(h5.1 (by norm_num) (by norm_num)).1,
    (h5.1 (by norm_num) (by norm_num)).2 () [()] none, ?_⟩
  rw [h0.2 (by norm_num)]
  norm_num

/-- With no positive budget, the loop consumes every batch, increments once
per batch, and keeps the last batch's augmented loss dict. -/
lemma fiestaLoop_noBudget {α : Type} (augLD : α → LossDict) (visdir : Bool)
    (maxIt : ℤ) (hm : maxIt ≤ 0) :
    ∀ (batches : List α) (hne : batches ≠ []) (cur : ℤ) (last : Option LossDict),
      (fiestaLoop augLD visdir maxIt batches cur last).2 =
        (cur + batches.length, some (augLD (batches.getLast hne))) := by
  intro batches
  induction batches with
  | nil => intro hne; exact absurd rfl hne
  | cons b rest ih =>
    intro hne cur last
    have hcont : (fiestaIter visdir cur maxIt).2 = true := by
      unfold fiestaIter
      rw [if_neg (by intro hc; omega)]
    cases rest with
    | nil =>
      unfold fiestaLoop
      rw [if_pos hcont]
      simp [fiestaLoop]
    | cons c cs =>
      unfold fiestaLoop
      rw [if_pos hcont]
      have ih2 := ih (by simp) (cur + 1) (some (augLD b))
      rw [ih2]
      simp only [Prod.mk.injEq]
      refine ⟨by simp only [List.length_cons]; push_cast; ring, ?_⟩
      simp [List.getLast_cons]

/-- C10.  The UGM runner returns the pair (updated counter, augmented-branch
loss dict of the last processed batch); on an empty data source the
augmented loss dict name is never bound and the function fails with a
NameError instead of returning. -/
theorem thm_C10 {α : Type} (augLD : α → LossDict) (visdir : Bool) (maxIt cur : ℤ) :
    train_one_epoch_FIESTA augLD visdir maxIt [] cur = Except.error "NameError"
    ∧ (maxIt ≤ 0 → ∀ (batches : List α) (hne : batches ≠ []),
        train_one_epoch_FIESTA augLD visdir maxIt batches cur =
          Except.ok (cur + batches.length, augLD (batches.getLast hne))) := by
  constructor
  · rfl
  · intro hm batches hne
    unfold train_one_epoch_FIESTA
    have h := fiestaLoop_noBudget augLD visdir maxIt hm batches hne cur none
    rcases heq : fiestaLoop augLD visdir maxIt batches cur none with ⟨evs, cur2, last⟩
    rw [heq] at h
    simp only [Prod.mk.injEq] at h
    rw [h.1, h.2]

/-- Witness for C10 at concrete inputs. -/
theorem thm_C10_witness :
    train_one_epoch_FIESTA (fun n : ℕ => [("a", (n : ℚ))]) true (-1) ([] : List ℕ) 7 =
      Except.error "NameError"
    ∧ train_one_epoch_FIESTA (fun n : ℕ => [("a", (n : ℚ))]) true (-1) [4, 9] 7 =
        Except.ok (9, [("a", 9)]) := by
  have h := thm_C10 (fun n : ℕ => [("a", (n : ℚ))]) true (-1) 7
  refine ⟨h.1, ?_⟩
  rw [h.2 (by norm_num) [4, 9] (by simp)]
  norm_num

/-- engine.py lines 29-50, one pass of the warmup loop over the data source:
per batch the counter is incremented first (line 33), every parameter group's
lr is set to `cur_iteration / warmup_iteration * learning_rate * lr_scale`
(lines 34-35) before the forward/backward/step, and the function returns the
counter as soon as `cur_iteration >= warmup_iteration` (lines 48-50).
Returns the final counter, the lr assigned before each completed step (for a
group with scale factor `scale`), and whether the pass returned. -/
def warmupPass (baseLR scale : ℚ) (W : ℕ) {α : Type} :
    List α → ℕ → ℕ × List ℚ × Bool
  | [], cur => (cur, [], false)
  | _ :: rest, cur =>
    let cur2 := cur + 1
    let lr := (cur2 : ℚ) / (W : ℚ) * baseLR * scale
    if W ≤ cur2 then (cur2, [lr], true)
    else
      let r := warmupPass baseLR scale W rest cur2
      (r.1, lr :: r.2.1, r.2.2)

/-- engine.py line 28: `while True:` — the data source is restarted until the
warmup budget is met.  A pass that ends without returning has advanced the
counter by exactly the pass length (`warmupPass_spec`), so the recursive call
continues from `cur + data.length`; the final fallback arm is reachable only
for an empty data source, where the source would loop forever. -/
def warmupWhile (baseLR scale : ℚ) (W : ℕ) {α : Type} (data : List α) :
    ℕ → ℕ × List ℚ
  | cur =>
    let r := warmupPass baseLR scale W data cur
    if r.2.2 then (r.1, r.2.1)
    else if h : 0 < data.length ∧ cur < W then
      let r2 := warmupWhile baseLR scale W data (cur + data.length)
      (r2.1, r.2.1 ++ r2.2)
    else (r.1, r.2.1)
  termination_by cur => W - cur
  decreasing_by omega

/-- engine.py lines 17-50: `train_warm_up` starts from `cur_iteration = 0`. -/
def train_warm_up (baseLR scale : ℚ) (W : ℕ) {α : Type} (data : List α) : ℕ × List ℚ :=
  warmupWhile baseLR scale W data 0

/-- The learning rates assigned at iterations `cur+1 ... cur+k`. -/
def lrList (baseLR scale : ℚ) (W : ℕ) (cur k : ℕ) : List ℚ :=
  (List.range k).map (fun j => ((cur + j + 1 : ℕ) : ℚ) / (W : ℚ) * baseLR * scale)

/-- Peeling the first iteration off an lr schedule segment. -/
lemma lrList_succ (baseLR scale : ℚ) (W cur k : ℕ) :
    lrList baseLR scale W cur (k + 1) =
      ((cur + 1 : ℕ) : ℚ) / (W : ℚ) * baseLR * scale :: lrList baseLR scale W (cur + 1) k := by
  unfold lrList
  rw [List.range_succ_eq_map, List.map_cons, List.map_map]
  refine List.cons_eq_cons.mpr ⟨by norm_num, ?_⟩
  refine List.map_congr_left ?_
  intro j hj
  simp only [Function.comp_apply]
  have h2 : cur + Nat.succ j + 1 = cur + 1 + j + 1 := by omega
  rw [h2]

/-- One warmup pass either reaches the budget exactly (returning counter `W`)
or consumes the whole pass, advancing the counter by its length. -/
lemma warmupPass_spec (baseLR scale : ℚ) (W : ℕ) {α : Type} :
    ∀ (data : List α) (cur : ℕ), cur < W →
      warmupPass baseLR scale W data cur =
        if W ≤ cur + data.length
        then (W, lrList baseLR scale W cur (W - cur), true)
        else (cur + data.length, lrList baseLR scale W cur data.length, false) := by
  intro data
  induction data with
  | nil =>
    intro cur hcur
    rw [if_neg (by simp; omega)]
    simp [warmupPass, lrList]
  | cons a rest ih =>
    intro cur hcur
    show (if W ≤ cur + 1 then ((cur + 1, [((cur + 1 : ℕ) : ℚ) / (W : ℚ) * baseLR * scale],
        true) : ℕ × List ℚ × Bool)
      else
        ((warmupPass baseLR scale W rest (cur + 1)).1,
          ((cur + 1 : ℕ) : ℚ) / (W : ℚ) * baseLR * scale ::
            (warmupPass baseLR scale W rest (cur + 1)).2.1,
          (warmupPass baseLR scale W rest (cur + 1)).2.2)) = _
    by_cases h1 : W ≤ cur + 1
    · rw [if_pos h1]
      have hW : W = cur + 1 := by omega
      rw [if_pos (by simp; omega)]
      have hr : W - cur = 1 := by omega
      rw [hr]
      simp [lrList, List.range_succ, hW]
    · rw [if_neg h1]
      have ih2 := ih (cur + 1) (by omega)
      rw [ih2]
      by_cases h2 : W ≤ cur + 1 + rest.length
      · rw [if_pos h2, if_pos (by simp; omega)]
        have hk : W - cur = (W - (cur + 1)) + 1 := by omega
        rw [hk, lrList_succ]
      · rw [if_neg h2, if_neg (by simp; omega)]
        have hk : (a :: rest).length = rest.length + 1 := by simp
        rw [hk, lrList_succ]
        simp only [Prod.mk.injEq]
        refine ⟨by omega, ?_⟩
        simp


/-- Consecutive lr schedule segments concatenate. -/
lemma lrList_append (baseLR scale : ℚ) (W : ℕ) :
    ∀ (a : ℕ) (cur b : ℕ),
      lrList baseLR scale W cur a ++ lrList baseLR scale W (cur + a) b =
        lrList baseLR scale W cur (a + b) := by
  intro a
  induction a with
  | zero => intro cur b; simp [lrList]
  | succ a ih =>
    intro cur b
    rw [lrList_succ, List.cons_append]
    have h1 : cur + (a + 1) = (cur + 1) + a := by omega
    rw [h1, ih (cur + 1) b]
    have h2 : a + 1 + b = (a + b) + 1 := by omega
    rw [h2, lrList_succ]

/-- The warmup loop from any counter below the budget returns exactly `W`
with the linear lr schedule for the remaining iterations. -/
lemma warmupWhile_spec (baseLR scale : ℚ) (W : ℕ) {α : Type} (data : List α)
    (hne : data ≠ []) :
    ∀ (n cur : ℕ), W - cur = n → cur < W →
      warmupWhile baseLR scale W data cur = (W, lrList baseLR scale W cur (W - cur)) := by
  intro n
  induction n using Nat.strong_induction_on with
  | _ n ih =>
    intro cur hn hcur
    by_cases h2 : W ≤ cur + data.length
    · have hpass : warmupPass baseLR scale W data cur =
          (W, lrList baseLR scale W cur (W - cur), true) := by
        rw [warmupPass_spec baseLR scale W data cur hcur, if_pos h2]
      rw [warmupWhile, hpass]
      simp
    · have hpass : warmupPass baseLR scale W data cur =
          (cur + data.length, lrList baseLR scale W cur data.length, false) := by
        rw [warmupPass_spec baseLR scale W data cur hcur, if_neg h2]
      have hlen : 0 < data.length := List.length_pos.mpr hne
      have hlt : cur + data.length < W := by omega
      have hrec := ih (W - (cur + data.length)) (by omega) (cur + data.length) rfl hlt
      have happ := lrList_append baseLR scale W data.length cur (W - (cur + data.length))
      have h3 : data.length + (W - (cur + data.length)) = W - cur := by omega
      rw [h3] at happ
      rw [warmupWhile, hpass]
      simp [hlen, hcur, hrec, happ]

/-- C5.  During warmup, for every iteration `i` in `[1, W]` the lr assigned to
a parameter group before that iteration's optimizer step is
`(i/W) * base_lr * lr_scale`, and `train_warm_up` returns the counter exactly
when it reaches `W` (the returned counter equals `W`, never more), restarting
the data source if it is exhausted earlier. -/
theorem thm_C5 (baseLR scale : ℚ) (W : ℕ) {α : Type} (data : List α)
    (hne : data ≠ []) (hW : 0 < W) :
    (train_warm_up baseLR scale W data).1 = W
    ∧ (train_warm_up baseLR scale W data).2.length = W
    ∧ ∀ i, 1 ≤ i → i ≤ W →
        (train_warm_up baseLR scale W data).2.getD (i - 1) 0 =
          (i : ℚ) / (W : ℚ) * baseLR * scale := by
  have h := warmupWhile_spec baseLR scale W data hne W 0 (by omega) hW
  unfold train_warm_up
  rw [h, Nat.sub_zero]
  refine ⟨rfl, by simp [lrList], ?_⟩
  intro i h1 h2
  have hi : i - 1 < W := by omega
  simp only [lrList, List.getD_eq_getElem?_getD, List.getElem?_map,
    List.getElem?_range hi]
  simp only [Option.map_some', Option.getD_some]
  have h3 : 0 + (i - 1) + 1 = i := by omega
  rw [h3]

/-- Witness for C5 at a concrete input. -/
theorem thm_C5_witness :
    ([(), ()] : List Unit) ≠ [] ∧ (0 : ℕ) < 3 ∧
    (train_warm_up 1 1 3 [(), ()]).1 = 3 ∧
    (train_warm_up 1 1 3 [(), ()]).2.getD 1 0 = 2 / 3 := by
  have h := thm_C5 1 1 3 [(), ()] (by simp) (by norm_num)
  refine ⟨by simp, by norm_num, h.1, ?_⟩
  have h3 := h.2.2 2 (by norm_num) (by norm_num)
  simpa using h3

/-- engine.py line 333: `domain, pid = scan_id.split("_")` — the domain is
the part of the scan identifier before the underscore. -/
def scanDomain (sid : String) : String :=
  String.mk (sid.toList.takeWhile (fun c => c ≠ '_'))

/-- engine.py lines 334-341: append one scan's score row to its domain's
table, creating the `{scores: [], scan_ids: []}` entry on first sight
(dict insertion order preserved; only the score rows are modelled). -/
def addScan (tbl : List (String × List (List ℚ))) (d : String) (row : List ℚ) :
    List (String × List (List ℚ)) :=
  match tbl with
  | [] => [(d, [row])]
  | e :: rest => if e.1 = d then (e.1, e.2 ++ [row]) :: rest else e :: addScan rest d row

/-- engine.py lines 329-346: `tables_by_domain` accumulated over the scans of
`vol_list` in arrival order. -/
def tablesByDomain (vols : List (String × List ℚ)) : List (String × List (List ℚ)) :=
  vols.foldl (fun tbl p => addScan tbl (scanDomain p.1) p.2) []

/-- `np.mean` of a flattened array: sum divided by length. -/
def qMean (xs : List ℚ) : ℚ := xs.sum / (xs.length : ℚ)

/-- The entries of `scores[:, 1:]` flattened: every class column except
background (column 0). -/
def rowsTail (rows : List (List ℚ)) : List ℚ := (rows.map (fun r => r.drop 1)).flatten

/-- engine.py line 357: `error_dict['overall'] = dsc_table[:, 1:].mean()` —
the scan-weighted global mean excluding background. -/
def overall (vols : List (String × List ℚ)) : ℚ := qMean (rowsTail (vols.map Prod.snd))

/-- engine.py lines 360-370: per domain
`domain_mean_score = np.mean(domain_scores[:, 1:])`, then
`error_dict['overall_by_domain'] = np.mean(overall_by_domain)` — the
unweighted mean of the per-domain means. -/
def overall_by_domain (vols : List (String × List ℚ)) : ℚ :=
  qMean ((tablesByDomain vols).map (fun e => qMean (rowsTail e.2)))

/-- The score rows stored for domain `d`: concatenation of the rows of every
entry keyed `d` (for tables with distinct keys, the unique entry's rows). -/
def rowsFor (tbl : List (String × List (List ℚ))) (d : String) : List (List ℚ) :=
  ((tbl.filter (fun e => e.1 = d)).map Prod.snd).flatten

/-- `addScan` keeps the key list, appending the new domain at the end when
unseen. -/
lemma addScan_keys (d : String) (row : List ℚ) :
    ∀ tbl, (addScan tbl d row).map Prod.fst =
      if d ∈ tbl.map Prod.fst then tbl.map Prod.fst else tbl.map Prod.fst ++ [d] := by
  intro tbl
  induction tbl with
  | nil => simp [addScan]
  | cons e rest ih =>
    by_cases h : e.1 = d
    · simp [addScan, h]
    · simp only [addScan, if_neg h, List.map_cons, ih]
      by_cases h2 : d ∈ rest.map Prod.fst
      · rw [if_pos h2, if_pos (by simp [h2])]
      · rw [if_neg h2, if_neg (by simp [h2]; exact fun hc => h hc.symm)]
        simp

/-- Unfolding `rowsFor` over a head entry. -/
lemma rowsFor_cons (e : String × List (List ℚ)) (rest : List (String × List (List ℚ)))
    (k : String) :
    rowsFor (e :: rest) k = (if e.1 = k then e.2 else []) ++ rowsFor rest k := by
  by_cases h : e.1 = k
  · simp [rowsFor, h]
  · simp [rowsFor, h]

/-- A domain absent from the key list stores no rows. -/
lemma rowsFor_eq_nil (tbl : List (String × List (List ℚ))) (k : String)
    (h : k ∉ tbl.map Prod.fst) : rowsFor tbl k = [] := by
  unfold rowsFor
  have hf : tbl.filter (fun e => e.1 = k) = [] := by
    rw [List.filter_eq_nil_iff]
    intro x hx
    simp only [decide_eq_true_eq]
    intro hc
    exact h (by rw [← hc]; exact List.mem_map_of_mem Prod.fst hx)
  rw [hf]
  rfl

/-- `addScan` appends the row to exactly its domain's entry. -/
lemma addScan_rowsFor (d : String) (row : List ℚ) :
    ∀ tbl, (tbl.map Prod.fst).Nodup → ∀ k,
      rowsFor (addScan tbl d row) k =
        if k = d then rowsFor tbl d ++ [row] else rowsFor tbl k := by
  intro tbl
  induction tbl with
  | nil =>
    intro hnd k
    by_cases h : k = d
    · rw [if_pos h, h]
      show rowsFor [(d, [row])] d = rowsFor [] d ++ [row]
      simp [rowsFor]
    · rw [if_neg h]
      show rowsFor [(d, [row])] k = rowsFor [] k
      have hd : d ≠ k := fun hc => h hc.symm
      simp [rowsFor, hd]
  | cons e rest ih =>
    intro hnd k
    have hnd2 : (rest.map Prod.fst).Nodup := by
      simp only [List.map_cons, List.nodup_cons] at hnd
      exact hnd.2
    have hme : e.1 ∉ rest.map Prod.fst := by
      simp only [List.map_cons, List.nodup_cons] at hnd
      exact hnd.1
    by_cases h : e.1 = d
    · have hstep : addScan (e :: rest) d row = (e.1, e.2 ++ [row]) :: rest := by
        simp [addScan, h]
      rw [hstep, rowsFor_cons, rowsFor_cons]
      have hrrest : rowsFor rest e.1 = [] := rowsFor_eq_nil rest e.1 hme
      by_cases hk : k = d
      · rw [if_pos hk]
        have he1k : e.1 = k := by rw [h, hk]
        have hd : rowsFor rest d = [] := by rw [← h]; exact hrrest
        have hkk : rowsFor rest k = [] := by rw [← he1k]; exact hrrest
        simp [he1k, h, hd, hkk, hk]
      · rw [if_neg hk]
        have he1k : ¬(e.1 = k) := by rw [h]; exact fun hc => hk hc.symm
        rw [rowsFor_cons]
        simp [he1k]
    · have hstep : addScan (e :: rest) d row = e :: addScan rest d row := by
        simp [addScan, h]
      rw [hstep, rowsFor_cons, ih hnd2 k]
      by_cases hk : k = d
      · rw [if_pos hk, if_pos hk, rowsFor_cons]
        have he1k : ¬(e.1 = k) := by rw [hk]; exact h
        simp [he1k, h]
      · rw [if_neg hk, if_neg hk, rowsFor_cons]


/-- `addScan` preserves distinctness of the domain keys. -/
lemma addScan_keys_nodup (d : String) (row : List ℚ) (tbl : List (String × List (List ℚ)))
    (hnd : (tbl.map Prod.fst).Nodup) : ((addScan tbl d row).map Prod.fst).Nodup := by
  rw [addScan_keys]
  by_cases h : d ∈ tbl.map Prod.fst
  · rw [if_pos h]
    exact hnd
  · rw [if_neg h]
    simp [List.nodup_append, hnd, h]

/-- Invariant of the accumulation loop: distinct keys, keys are exactly the
seen domains, and each domain's rows are the filtered scans in order. -/
lemma fold_tables (vols : List (String × List ℚ)) :
    ∀ tbl, (tbl.map Prod.fst).Nodup →
      (((vols.foldl (fun t p => addScan t (scanDomain p.1) p.2) tbl).map Prod.fst).Nodup
      ∧ (∀ k, k ∈ (vols.foldl (fun t p => addScan t (scanDomain p.1) p.2) tbl).map Prod.fst ↔
          k ∈ tbl.map Prod.fst ∨ k ∈ vols.map (fun p => scanDomain p.1))
      ∧ ∀ k, rowsFor (vols.foldl (fun t p => addScan t (scanDomain p.1) p.2) tbl) k =
          rowsFor tbl k ++ (vols.filter (fun p => scanDomain p.1 = k)).map Prod.snd) := by
  induction vols with
  | nil =>
    intro tbl hnd
    refine ⟨hnd, by simp, by simp⟩
  | cons p rest ih =>
    intro tbl hnd
    have hnd2 := addScan_keys_nodup (scanDomain p.1) p.2 tbl hnd
    obtain ⟨ha, hb, hc⟩ := ih (addScan tbl (scanDomain p.1) p.2) hnd2
    refine ⟨ha, ?_, ?_⟩
    · intro k
      rw [List.foldl_cons, hb k, addScan_keys]
      by_cases h : scanDomain p.1 ∈ tbl.map Prod.fst
      · rw [if_pos h]
        simp only [List.map_cons, List.mem_cons]
        constructor
        · intro h2
          rcases h2 with h2 | h2
          · exact Or.inl h2
          · exact Or.inr (Or.inr h2)
        · intro h2
          rcases h2 with h2 | h2 | h2
          · exact Or.inl h2
          · rw [h2]; exact Or.inl h
          · exact Or.inr h2
      · rw [if_neg h]
        simp only [List.mem_append, List.map_cons, List.mem_cons, List.mem_singleton,
          List.not_mem_nil, or_false]
        tauto
    · intro k
      rw [List.foldl_cons, hc k, addScan_rowsFor (scanDomain p.1) p.2 tbl hnd k,
        List.filter_cons]
      by_cases h : scanDomain p.1 = k
      · rw [if_pos (h.symm), if_pos (by simp [h])]
        simp [h, List.append_assoc]
      · rw [if_neg (fun hc2 => h hc2.symm), if_neg (by simp [h])]

/-- In a table with distinct keys, each entry's rows are `rowsFor` its key. -/
lemma entry_eq_rowsFor :
    ∀ (tbl : List (String × List (List ℚ))), (tbl.map Prod.fst).Nodup →
      ∀ e ∈ tbl, rowsFor tbl e.1 = e.2 := by
  intro tbl
  induction tbl with
  | nil => intro hnd e he; simp at he
  | cons a rest ih =>
    intro hnd e he
    have hnd2 : (rest.map Prod.fst).Nodup := by
      simp only [List.map_cons, List.nodup_cons] at hnd
      exact hnd.2
    have hme : a.1 ∉ rest.map Prod.fst := by
      simp only [List.map_cons, List.nodup_cons] at hnd
      exact hnd.1
    rcases List.mem_cons.mp he with h | h
    · subst h
      rw [rowsFor_cons, if_pos rfl, rowsFor_eq_nil rest e.1 hme, List.append_nil]
    · have hne : ¬(a.1 = e.1) := by
        intro hc
        exact hme (by rw [hc]; exact List.mem_map_of_mem Prod.fst h)
      rw [rowsFor_cons, if_neg hne, List.nil_append]
      exact ih hnd2 e h

/-- `tables_by_domain` groups correctly: distinct keys, one per domain seen,
each entry holding exactly its domain's score rows in arrival order. -/
lemma tablesByDomain_spec (vols : List (String × List ℚ)) :
    ((tablesByDomain vols).map Prod.fst).Nodup
    ∧ (∀ k, k ∈ (tablesByDomain vols).map Prod.fst ↔ k ∈ vols.map (fun p => scanDomain p.1))
    ∧ ∀ e ∈ tablesByDomain vols,
        e.2 = (vols.filter (fun p => scanDomain p.1 = e.1)).map Prod.snd := by
  obtain ⟨ha, hb, hc⟩ := fold_tables vols [] (by simp)
  refine ⟨ha, ?_, ?_⟩
  · intro k
    rw [tablesByDomain, hb k]
    simp
  · intro e he
    have h1 := entry_eq_rowsFor (tablesByDomain vols) ha e he
    rw [← h1, tablesByDomain, hc e.1]
    simp [rowsFor]

/-- C7.  `overall_by_domain` is the unweighted mean over the distinct domains
of each domain's mean score over its own scans and all classes except
background, and on the spec's example (domains with 2 vs 1 scans) it equals
3/4 while the scan-weighted `overall` equals 2/3 — the two averaging policies
differ. -/
theorem thm_C7 (vols : List (String × List ℚ)) :
    (((tablesByDomain vols).map Prod.fst).Nodup
      ∧ ∀ k, k ∈ (tablesByDomain vols).map Prod.fst ↔ k ∈ vols.map (fun p => scanDomain p.1))
    ∧ overall_by_domain vols =
        qMean ((tablesByDomain vols).map (fun e =>
          qMean (rowsTail ((vols.filter (fun p => scanDomain p.1 = e.1)).map Prod.snd))))
    ∧ overall_by_domain [("A_1", [0, 1]), ("A_2", [0, 0]), ("B_1", [0, 1])] = 3 / 4
    ∧ overall [("A_1", [0, 1]), ("A_2", [0, 0]), ("B_1", [0, 1])] = 2 / 3
    ∧ overall_by_domain [("A_1", [0, 1]), ("A_2", [0, 0]), ("B_1", [0, 1])] ≠
        overall [("A_1", [0, 1]), ("A_2", [0, 0]), ("B_1", [0, 1])] := by
  obtain ⟨ha, hb, hc⟩ := tablesByDomain_spec vols
  have ht : tablesByDomain [("A_1", ([0, 1] : List ℚ)), ("A_2", [0, 0]), ("B_1", [0, 1])] =
      [("A", [[0, 1], [0, 0]]), ("B", [[0, 1]])] := by decide
  have hbd : overall_by_domain [("A_1", ([0, 1] : List ℚ)), ("A_2", [0, 0]), ("B_1", [0, 1])] =
      3 / 4 := by
    rw [overall_by_domain, ht]
    norm_num [qMean, rowsTail]
  have hov : overall [("A_1", ([0, 1] : List ℚ)), ("A_2", [0, 0]), ("B_1", [0, 1])] = 2 / 3 := by
    rw [overall]
    norm_num [qMean, rowsTail]
  refine ⟨⟨ha, hb⟩, ?_, hbd, hov, ?_⟩
  · rw [overall_by_domain]
    congr 1
    refine List.map_congr_left ?_
    intro e he
    rw [hc e he]
  · rw [hbd, hov]
    norm_num

/-- Pixels of class `c` in a flattened class map (a one-hot channel sum). -/
def classCount (m : List ℕ) (c : ℕ) : ℕ := m.countP (fun v => decide (v = c))

/-- Pixels of class `c` in both maps at the same position (the one-hot
intersection sum). -/
def interCount (p g : List ℕ) (c : ℕ) : ℕ :=
  (List.zip p g).countP (fun q => decide (q.1 = c ∧ q.2 = c))

/-- The monai `compute_meandice` collaborator per class (external to the
repository, modelled from spec section 4.4 and the glossary):
`2|P∩G| / (|P|+|G|)`, nan when the ground truth has no pixel of the class. -/
def diceClass (p g : List ℕ) (c : ℕ) : FloatVal :=
  if classCount g c = 0 then FloatVal.nan
  else FloatVal.finite ((2 * interCount p g c : ℚ) / ((classCount p c + classCount g c : ℕ) : ℚ))

/-- engine.py line 254: `compute_meandice(one_hot_pred, one_hot_gt,
include_background=False)` — one sample's dice row for classes `1 .. nc-1`. -/
def diceRow (p g : List ℕ) (nc : ℕ) : List FloatVal :=
  ((List.range nc).drop 1).map (diceClass p g)

/-- `np.nanmean` over one column: the mean of the non-nan entries, nan when
there are none (dice entries are finite or nan, never infinite). -/
def nanMean (col : List FloatVal) : FloatVal :=
  let fs := col.filterMap (fun x => match x with | FloatVal.finite q => some q | _ => none)
  if fs.length = 0 then FloatVal.nan else FloatVal.finite (fs.sum / (fs.length : ℚ))

/-- engine.py lines 242-258: per data-loader batch a `[batch, nc-1]` dice
array is appended to `dices`; `np.concatenate(dices, 0)` stacks the rows and
`np.nanmean(dices, 0)` takes the column-wise nan-aware mean. -/
def evaluate (batches : List (List (List ℕ × List ℕ))) (nc : ℕ) : List FloatVal :=
  let dices := batches.map (fun b => b.map (fun pg => diceRow pg.1 pg.2 nc))
  let rows := dices.flatten
  (List.range (nc - 1)).map (fun j => nanMean (rows.map (fun r => r.getD j FloatVal.nan)))

/-- `getD` distributes over `map` inside the length. -/
lemma map_getD {α β : Type} (f : α → β) (d : β) (da : α) :
    ∀ (as : List α) (i : ℕ), i < as.length → (as.map f).getD i d = f (as.getD i da) := by
  intro as
  induction as with
  | nil => intro i h; simp at h
  | cons a as ih =>
    intro i h
    cases i with
    | zero => simp
    | succ n =>
      simp only [List.map_cons, List.getD_cons_succ]
      exact ih n (by simpa using h)

/-- C9.  The final per-class vector is the column-wise nan-aware mean of the
concatenated per-batch dice rows; a sample whose ground truth lacks class
`j+1` contributes nan in column `j` (no error is raised — every function here
is total), and appending a nan entry to a column leaves its mean unchanged. -/
theorem thm_C9 (batches : List (List (List ℕ × List ℕ))) (nc : ℕ) (j : ℕ)
    (hj : j < nc - 1) :
    (evaluate batches nc).getD j FloatVal.nan =
      nanMean ((batches.flatten).map
        (fun pg => (diceRow pg.1 pg.2 nc).getD j FloatVal.nan))
    ∧ (∀ pg : List ℕ × List ℕ, classCount pg.2 (j + 1) = 0 →
        (diceRow pg.1 pg.2 nc).getD j FloatVal.nan = FloatVal.nan)
    ∧ (∀ col : List FloatVal, nanMean (col ++ [FloatVal.nan]) = nanMean col) := by
  have hrow : ∀ (p g : List ℕ),
      (diceRow p g nc).getD j FloatVal.nan = diceClass p g (j + 1) := by
    intro p g
    have hlen : j < ((List.range nc).drop 1).length := by
      simp only [List.length_drop, List.length_range]
      omega
    rw [diceRow, map_getD (diceClass p g) FloatVal.nan 0 _ j hlen]
    have hidx : ((List.range nc).drop 1).getD j 0 = j + 1 := by
      rw [List.getD_eq_getElem?_getD, List.getElem?_drop, List.getElem?_range (by omega)]
      simp [Nat.add_comm]
    rw [hidx]
  refine ⟨?_, ?_, ?_⟩
  · rw [evaluate]
    rw [map_getD _ FloatVal.nan 0 _ j (by simpa using hj)]
    have hidx : (List.range (nc - 1)).getD j 0 = j := by
      rw [List.getD_eq_getElem?_getD, List.getElem?_range hj]
      rfl
    rw [hidx]
    congr 1
    rw [← List.map_flatten, List.map_map]
    rfl
  · intro pg habs
    rw [hrow pg.1 pg.2, diceClass, if_pos habs]
  · intro col
    rw [nanMean, nanMean]
    simp

/-- Witness for C9 at a concrete input. -/
theorem thm_C9_witness :
    (0 : ℕ) < 3 - 1 ∧
    (evaluate [[([0, 1], [0, 1])], [([1, 1], [2, 2])]] 3).getD 0 FloatVal.nan =
      FloatVal.finite 1 ∧
    (diceRow [1, 1] [2, 2] 3).getD 0 FloatVal.nan = FloatVal.nan ∧
    nanMean [FloatVal.finite 1, FloatVal.nan] = nanMean [FloatVal.finite 1] := by
  have h := thm_C9 [[([0, 1], [0, 1])], [([1, 1], [2, 2])]] 3 0 (by norm_num)
  refine ⟨by norm_num, ?_, h.2.1 ([1, 1], [2, 2]) (by decide), h.2.2 [FloatVal.finite 1]⟩
  rw [h.1]
  simp only [List.flatten, List.map]
  norm_num [nanMean, diceRow, diceClass, classCount, interCount, List.range_succ,
    List.filterMap_cons, List.filterMap_nil]

/-- One batch of the test loader for the volumetric-evaluation path
(spec section 3): boundary flags, scan identifier, total slice count, the
per-element label list (whose length is the batch size, asserted to be 1),
and the data fed to the model (from which `argmax(model(img), 1)[0]` is the
predicted class map; `π` abstracts an image, `γ` a 2D label map). -/
structure PBatch (π γ : Type) where
  is_start : Bool
  is_end : Bool
  scan_id : String
  nframe : ℕ
  labels : List γ
  image : π

/-- The accumulation variables of the loop in engine.py lines 275-298:
`slice_idx`, `scan_id_full`, `nframe`, and the `curr_pred` / `curr_gth`
buffers (rows abstracted as `ρ` / `γ`, initialized to zero rows `zp` / `zg`). -/
structure PState (ρ γ : Type) where
  slice_idx : ℕ
  scan_id : String
  nframe : ℕ
  curr_pred : List ρ
  curr_gth : List γ
deriving DecidableEq

/-- engine.py lines 276-302, one loop body: on `is_start` the state is reset
(slice 0, fresh zero buffers of `nframe` rows); referencing the state before
any `is_start` raises a NameError; `assert batch['labels'].shape[0] == 1`
raises otherwise; the predicted class map and label are written at
`slice_idx` (an out-of-range write raises IndexError); `slice_idx` increments
once, unconditionally; on `is_end` the buffers are emitted keyed by the scan
id. -/
def predStep {π ρ γ : Type} (model : π → ρ) (zp : ρ) (zg : γ)
    (st : Option (PState ρ γ)) (b : PBatch π γ) :
    Except String (PState ρ γ × List (String × List ρ × List γ)) :=
  match (if b.is_start then
          some (⟨0, b.scan_id, b.nframe,
            List.replicate b.nframe zp, List.replicate b.nframe zg⟩ : PState ρ γ)
        else st) with
  | none => Except.error "NameError"
  | some s =>
    if b.labels.length = 1 then
      if s.slice_idx < s.nframe then
        let st3 : PState ρ γ :=
          ⟨s.slice_idx + 1, s.scan_id, s.nframe,
            s.curr_pred.set s.slice_idx (model b.image),
            s.curr_gth.set s.slice_idx (b.labels.headD zg)⟩
        Except.ok (st3, if b.is_end then [(st3.scan_id, st3.curr_pred, st3.curr_gth)] else [])
      else Except.error "IndexError"
    else Except.error "AssertionError"

/-- The evaluation loop over the test loader, collecting the finalized scans
in emission order and the value of `slice_idx` after each batch. -/
def predRun {π ρ γ : Type} (model : π → ρ) (zp : ρ) (zg : γ) :
    List (PBatch π γ) → Option (PState ρ γ) →
      Except String (Option (PState ρ γ) × List (String × List ρ × List γ) × List ℕ)
  | [], st => Except.ok (st, [], [])
  | b :: rest, st =>
    match predStep model zp zg st b with
    | Except.error e => Except.error e
    | Except.ok (st2, out) =>
      match predRun model zp zg rest (some st2) with
      | Except.error e => Except.error e
      | Except.ok (stf, outs, trace) => Except.ok (stf, out ++ outs, st2.slice_idx :: trace)

/-- engine.py line 260: `prediction_wrapper` starts with no live scan state. -/
def prediction_wrapper {π ρ γ : Type} (model : π → ρ) (zp : ρ) (zg : γ)
    (batches : List (PBatch π γ)) :
    Except String (Option (PState ρ γ) × List (String × List ρ × List γ) × List ℕ) :=
  predRun model zp zg batches none

/-- Writing at the first zero-initialized row extends the written prefix. -/
lemma set_append_replicate {β : Type} (z x : β) :
    ∀ (A : List β) (m : ℕ), 0 < m →
      (A ++ List.replicate m z).set A.length x = (A ++ [x]) ++ List.replicate (m - 1) z := by
  intro A
  induction A with
  | nil =>
    intro m hm
    cases m with
    | zero => omega
    | succ m2 => simp [List.replicate_succ]
  | cons a A ih =>
    intro m hm
    simp only [List.cons_append, List.length_cons, List.set_cons_succ]
    rw [ih m hm]

/-- Processing the remaining slices of a scan from a partially filled state:
every row is written in order, the counter advances once per batch, and the
scan is emitted exactly at the `is_end` batch. -/
lemma predRun_suffix {π ρ γ : Type} (model : π → ρ) (zp : ρ) (zg : γ)
    (sid : String) (n : ℕ) :
    ∀ (mid : List (PBatch π γ)) (blast : PBatch π γ) (k : ℕ) (accP : List ρ) (accG : List γ),
      k + mid.length + 1 = n →
      accP.length = k → accG.length = k →
      (∀ b ∈ mid ++ [blast], b.is_start = false ∧ b.nframe = n ∧ b.labels.length = 1) →
      (∀ b ∈ mid, b.is_end = false) →
      blast.is_end = true →
      predRun model zp zg (mid ++ [blast])
          (some ⟨k, sid, n, accP ++ List.replicate (n - k) zp,
            accG ++ List.replicate (n - k) zg⟩) =
        Except.ok (some ⟨n, sid, n,
            accP ++ (mid ++ [blast]).map (fun b => model b.image),
            accG ++ (mid ++ [blast]).map (fun b => b.labels.headD zg)⟩,
          [(sid, accP ++ (mid ++ [blast]).map (fun b => model b.image),
            accG ++ (mid ++ [blast]).map (fun b => b.labels.headD zg))],
          List.range' (k + 1) (mid.length + 1)) := by
  intro mid
  induction mid with
  | nil =>
    intro blast k accP accG hn hP hG hall hmid hend
    obtain ⟨hbs, hbn, hbl⟩ := hall blast (by simp)
    have hk : k + 1 = n := by simpa using hn
    have hset : (accP ++ List.replicate (n - k) zp).set k (model blast.image) =
        accP ++ [model blast.image] := by
      have h0 := set_append_replicate zp (model blast.image) accP (n - k) (by omega)
      rw [hP] at h0
      rw [h0]
      have h1 : n - k - 1 = 0 := by omega
      rw [h1]
      simp
    have hsetG : (accG ++ List.replicate (n - k) zg).set k (blast.labels.headD zg) =
        accG ++ [blast.labels.headD zg] := by
      have h0 := set_append_replicate zg (blast.labels.headD zg) accG (n - k) (by omega)
      rw [hG] at h0
      rw [h0]
      have h1 : n - k - 1 = 0 := by omega
      rw [h1]
      simp
    have hklt : k < n := by omega
    simp only [List.nil_append, predRun, predStep, hbs, Bool.false_eq_true, if_false,
      hbl, if_pos rfl, hklt, if_true, hend, hset, hsetG, hk, List.map_cons, List.map_nil]
    rfl
  | cons b mid ih =>
    intro blast k accP accG hn hP hG hall hmid hend
    obtain ⟨hbs, hbn, hbl⟩ := hall b (by simp)
    have hbe : b.is_end = false := hmid b (by simp)
    have hklt : k < n := by
      simp only [List.length_cons] at hn
      omega
    have hm : 1 < n - k := by
      simp only [List.length_cons] at hn
      omega
    have hset : (accP ++ List.replicate (n - k) zp).set k (model b.image) =
        (accP ++ [model b.image]) ++ List.replicate (n - (k + 1)) zp := by
      have h0 := set_append_replicate zp (model b.image) accP (n - k) (by omega)
      rw [hP] at h0
      rw [h0]
      have h2 : n - k - 1 = n - (k + 1) := by omega
      rw [h2]
    have hsetG : (accG ++ List.replicate (n - k) zg).set k (b.labels.headD zg) =
        (accG ++ [b.labels.headD zg]) ++ List.replicate (n - (k + 1)) zg := by
      have h0 := set_append_replicate zg (b.labels.headD zg) accG (n - k) (by omega)
      rw [hG] at h0
      rw [h0]
      have h2 : n - k - 1 = n - (k + 1) := by omega
      rw [h2]
    have ih2 := ih blast (k + 1) (accP ++ [model b.image]) (accG ++ [b.labels.headD zg])
      (by simp only [List.length_cons] at hn; omega)
      (by simp [hP]) (by simp [hG])
      (fun x hx => hall x (by simp at hx ⊢; tauto))
      (fun x hx => hmid x (by simp [hx]))
      hend
    simp only [List.cons_append, predRun, predStep, hbs, Bool.false_eq_true, if_false,
      hbl, if_pos rfl, hklt, if_true, hbe, hset, hsetG]
    simp only [List.append_eq]
    rw [ih2]
    simp only [List.map_cons, List.nil_append, List.append_assoc, List.cons_append,
      List.singleton_append]
    rfl

/-- C8.  For a well-formed scan stream (`is_start` on the first batch only,
`is_end` on the last only, batch size 1, constant `nframe` equal to the
stream length), the reassembler emits exactly one entry keyed by the scan id
whose `pred`/`gth` buffers hold one row per slice — row `k` being the `k`-th
batch's predicted class map and label — and the `slice_idx` trace is
`[1, 2, ..., nframe]`: reset to 0 at `is_start`, then one unconditional
increment per batch, including the start and end batches. -/
theorem thm_C8 {π ρ γ : Type} (model : π → ρ) (zp : ρ) (zg : γ)
    (b0 : PBatch π γ) (rest : List (PBatch π γ))
    (hstart : b0.is_start = true)
    (hnostart : ∀ b ∈ rest, b.is_start = false)
    (hframe : ∀ b ∈ b0 :: rest, b.nframe = (b0 :: rest).length ∧ b.labels.length = 1)
    (hendmid : ∀ b ∈ (b0 :: rest).dropLast, b.is_end = false)
    (hendlast : ((b0 :: rest).getLast (by simp)).is_end = true) :
    prediction_wrapper model zp zg (b0 :: rest) =
      Except.ok (some ⟨(b0 :: rest).length, b0.scan_id, (b0 :: rest).length,
          (b0 :: rest).map (fun b => model b.image),
          (b0 :: rest).map (fun b => b.labels.headD zg)⟩,
        [(b0.scan_id, (b0 :: rest).map (fun b => model b.image),
          (b0 :: rest).map (fun b => b.labels.headD zg))],
        List.range' 1 (b0 :: rest).length) := by
  obtain ⟨hb0n, hb0l⟩ := hframe b0 (by simp)
  have hset0 : (List.replicate (b0 :: rest).length zp).set 0 (model b0.image) =
      [model b0.image] ++ List.replicate ((b0 :: rest).length - 1) zp := by
    have h0 := set_append_replicate zp (model b0.image) [] (b0 :: rest).length (by simp)
    simpa using h0
  have hset0G : (List.replicate (b0 :: rest).length zg).set 0 (b0.labels.headD zg) =
      [b0.labels.headD zg] ++ List.replicate ((b0 :: rest).length - 1) zg := by
    have h0 := set_append_replicate zg (b0.labels.headD zg) [] (b0 :: rest).length (by simp)
    simpa using h0
  rcases List.eq_nil_or_concat rest with hr | ⟨mid, blast, hr⟩
  · subst hr
    have hend0 : b0.is_end = true := by simpa using hendlast
    simp only [prediction_wrapper, predRun, predStep, hstart, if_pos rfl, hb0l, hb0n,
      List.length_cons, List.length_nil, Nat.zero_lt_one, if_true, hend0, hset0, hset0G]
    simp [List.range']
  · rw [List.concat_eq_append] at hr
    subst hr
    have hend0 : b0.is_end = false := by
      have : b0 ∈ (b0 :: (mid ++ [blast])).dropLast := by
        rw [show b0 :: (mid ++ [blast]) = (b0 :: mid) ++ [blast] from by simp,
          List.dropLast_concat]
        simp
      exact hendmid b0 this
    have hlast : blast.is_end = true := by
      have hgl : (b0 :: (mid ++ [blast])).getLast (by simp) = blast :=
        List.getLast_concat (b0 :: mid)
      rw [← hgl]
      exact hendlast
    have hmids : ∀ b ∈ mid, b.is_end = false := by
      intro b hb
      apply hendmid
      rw [show b0 :: (mid ++ [blast]) = (b0 :: mid) ++ [blast] from by simp,
        List.dropLast_concat]
      simp [hb]
    have hsuf := predRun_suffix model zp zg b0.scan_id (b0 :: (mid ++ [blast])).length
      mid blast 1 [model b0.image] [b0.labels.headD zg]
      (by simp; omega) (by simp) (by simp)
      (fun x hx => by
        obtain ⟨h1, h2⟩ := hframe x (by simp at hx ⊢; tauto)
        exact ⟨hnostart x (by simp at hx ⊢; tauto), h1, h2⟩)
      hmids hlast
    have hn1 : (b0 :: (mid ++ [blast])).length - 1 = (mid ++ [blast]).length := by simp
    have hpos : 0 < (b0 :: (mid ++ [blast])).length := by simp
    simp only [prediction_wrapper, predRun, predStep, hstart, if_pos rfl, hb0l, hb0n,
      hpos, if_true, hend0, Bool.false_eq_true, if_false, hset0, hset0G, hn1,
      List.append_eq, zero_add]
    rw [hn1] at hsuf
    rw [hsuf]
    simp only [List.map_cons, List.singleton_append, List.nil_append]
    have hrange : List.range' 1 ((b0 :: (mid ++ [blast])).length) =
        1 :: List.range' 2 (mid.length + 1) := by
      simp [List.range']
    rw [hrange]

/-- Witness for C8 on a concrete 3-slice scan. -/
theorem thm_C8_witness :
    prediction_wrapper (fun x : ℕ => x + 1) 0 0
        [(⟨true, false, "A_1", 3, [7], 100⟩ : PBatch ℕ ℕ),
         ⟨false, false, "A_1", 3, [8], 101⟩,
         ⟨false, true, "A_1", 3, [9], 102⟩] =
      Except.ok (some ⟨3, "A_1", 3, [101, 102, 103], [7, 8, 9]⟩,
        [("A_1", [101, 102, 103], [7, 8, 9])], [1, 2, 3]) := by
  have h := thm_C8 (fun x : ℕ => x + 1) 0 0
    (⟨true, false, "A_1", 3, [7], 100⟩ : PBatch ℕ ℕ)
    [⟨false, false, "A_1", 3, [8], 101⟩, ⟨false, true, "A_1", 3, [9], 102⟩]
    rfl (by decide) (by decide) (by decide) (by decide)
  rw [prediction_wrapper] at h ⊢
  rw [h]
  rfl

end FAUG
